import Mathlib

/-!
Verification of the private-jets flight-tracking core against its design
specification.

The development shallowly embeds the two source files under scrutiny:

* `src/legs.rs` — the leg segmenter (`Position`, `Leg`, `legs`): raw JSON
  trace entries are normalised to `Position` samples (altitude thresholding,
  ground sentinel), and a single forward pass over the sorted samples emits
  flight legs.  Rust `f64` coordinates/altitudes are modelled as `ℚ` (all
  constants involved are exact), `serde_json::Value` is modelled by the
  three shapes the parser distinguishes (string / number / other), and the
  fatal `assert!` in `legs` is modelled by returning `none`.
* `src/trace_month.rs` — the month-bucketed cache layer
  (`blob_name_to_pk`, `pk_to_blob_name`, `get_month`, `month_positions`,
  `aircraft_positions`): calendar dates are modelled by a `Date` structure
  with the Gregorian month lengths, Rust byte-string manipulation by
  `List Char` (all fixed template characters are ASCII), panics
  (out-of-range slices, failed `parse().unwrap()`) by explicit `panic`
  results, and `HashMap`/`HashSet` by association lists / deduplicated
  lists (the merge in `aircraft_positions` is keyed, hence
  order-independent).
-/

/-! ## `src/legs.rs`: positions and the leg segmenter -/

/-- The shapes of `serde_json::Value` that the per-sample parser in `legs`
distinguishes for the altitude field: a string, a number, or anything else
(null, bool, array, object). -/
inductive Json where
  | str (s : List Char)
  | num (x : ℚ)
  | other
deriving DecidableEq

/-- Model of `serde_json::Value::as_str`. -/
def Json.as_str : Json → Option (List Char)
  | .str s => some s
  | _ => none

/-- Model of `serde_json::Value::as_f64` (any JSON number yields a value). -/
def Json.as_f64 : Json → Option ℚ
  | .num x => some x
  | _ => none

/-- Type `Position` from src/legs.rs: either `Grounded(f64, f64)` or
`Flying(f64, f64, f64)`, with `f64` modelled as `ℚ`. -/
inductive Position where
  | Grounded (a b : ℚ)
  | Flying (a b alt : ℚ)
deriving DecidableEq

/-- Method `Position::pos`: returns the first two fields of either variant,
named `(long, lat)` in the source pattern. -/
def Position.pos : Position → ℚ × ℚ
  | .Flying long lat _ => (long, lat)
  | .Grounded long lat => (long, lat)

/-- Whether a position is the `Flying` variant. -/
def Position.isFlying : Position → Bool
  | .Flying _ _ _ => true
  | _ => false

/-- Type `Leg` from src/legs.rs (`from` and `to` are Lean keywords, hence `from_`, `to_`). -/
structure Leg where
  from_ : Position
  to_ : Position
deriving DecidableEq

/-- The per-entry closure of `legs` (src/legs.rs lines 38-59).  In the raw
trace entry, index 1 is latitude, index 2 longitude and index 3 either a
baro altitude (number) or the `"ground"` sentinel; `lat` and `long` are the
already-unwrapped numeric fields at indices 1 and 2:
`entry[3].as_str().and_then(|x| (x == "ground").then_some(Grounded(lat, long)))
 .unwrap_or_else(|| entry[3].as_f64().and_then(|x| Some(if x < 1000.0 {…} else {…}))
 .unwrap_or(Grounded(lat, long)))`. -/
def toPosition (lat long : ℚ) (altitude : Json) : Position :=
  (altitude.as_str.bind fun x =>
      if x = "ground".toList then some (Position.Grounded lat long) else none).getD
    ((altitude.as_f64.bind fun x =>
        some (if x < 1000 then Position.Grounded lat long
              else Position.Flying lat long x)).getD
      (Position.Grounded lat long))

/-- Model of `legs.last_mut().unwrap().to = position`: replace the `to` field of the
last leg of a non-empty list (identity on the empty list). -/
def setLastTo : List Leg → Position → List Leg
  | [], _ => []
  | [l], p => [{ l with to_ := p }]
  | l :: l' :: ls, p => l :: setLastTo (l' :: ls) p

/-- One iteration of the `for_each` in `legs` (src/legs.rs lines 64-85).
State is `(prev_position, first, legs)`. -/
def legsStep : Position × Position × List Leg → Position → Position × Position × List Leg
  | (prev, first, ls), position =>
    match prev, position with
    | Position.Grounded _ _, Position.Flying _ _ _ =>
        (position, first, ls ++ [⟨prev, prev⟩])
    | Position.Flying _ _ _, Position.Grounded _ _ =>
        if ls.isEmpty then (position, first, [⟨first, position⟩])
        else (position, first, setLastTo ls position)
    | _, _ => (position, first, ls)

/-- The leg segmenter (src/legs.rs lines 34-91) on an already-normalised
position sequence.  The empty trace returns `Ok(vec![])`; otherwise the
forward pass runs, the `assert!(!legs.is_empty())` is modelled by `none`
(fatal abort), and a trace ending airborne extends the last leg's `to`. -/
def legs (trace : List Position) : Option (List Leg) :=
  match trace with
  | [] => some []
  | p :: rest =>
    let s := rest.foldl legsStep (p, p, [])
    let prev := s.1
    let ls := s.2.2
    if ls.isEmpty then none
    else some (match prev with
      | Position.Flying _ _ _ => setLastTo ls prev
      | _ => ls)

/-! ## Lemmas about the leg segmenter -/

/-- Function `setLastTo` never turns a non-empty list empty. -/
theorem setLastTo_ne_nil (ls : List Leg) (p : Position) (h : ls ≠ []) :
    setLastTo ls p ≠ [] := by
  match ls with
  | [] => exact absurd rfl h
  | [l] => simp [setLastTo]
  | l :: l' :: ls => simp [setLastTo]

/-- If the fold of the leg segmenter ends with an empty leg list, it started
with an empty leg list and every sample shares the vertical state of the
initial `prev_position`. -/
theorem foldl_legsStep_empty (l : List Position) :
    ∀ (prev first : Position) (ls : List Leg),
      (l.foldl legsStep (prev, first, ls)).2.2 = [] →
      ls = [] ∧ ∀ q ∈ l, q.isFlying = prev.isFlying := by
  induction l with
  | nil => intro prev first ls h; exact ⟨h, by simp⟩
  | cons q rest ih =>
    intro prev first ls h
    rw [List.foldl_cons] at h
    match hp : prev, hq : q with
    | Position.Grounded a b, Position.Grounded c d =>
      have := ih q first ls (by simpa [legsStep, hq] using h)
      refine ⟨this.1, ?_⟩
      intro r hr
      rcases List.mem_cons.1 hr with h1 | h1
      · subst h1; rfl
      · rw [this.2 r (by simpa [hq] using h1), hq]; rfl
    | Position.Grounded a b, Position.Flying c d e =>
      have := ih q first (ls ++ [⟨Position.Grounded a b, Position.Grounded a b⟩])
        (by simpa [legsStep, hq] using h)
      exact absurd this.1 (by simp)
    | Position.Flying a b e, Position.Grounded c d =>
      by_cases hls : ls.isEmpty
      · have := ih q first [⟨first, Position.Grounded c d⟩]
          (by simpa [legsStep, hq, hls] using h)
        exact absurd this.1 (by simp)
      · have hne : ls ≠ [] := by simpa [List.isEmpty_iff] using hls
        have := ih q first (setLastTo ls (Position.Grounded c d))
          (by simpa [legsStep, hq, hls] using h)
        exact absurd this.1 (setLastTo_ne_nil ls _ hne)
    | Position.Flying a b e, Position.Flying c d f =>
      have := ih q first ls (by simpa [legsStep, hq] using h)
      refine ⟨this.1, ?_⟩
      intro r hr
      rcases List.mem_cons.1 hr with h1 | h1
      · subst h1; rfl
      · rw [this.2 r (by simpa [hq] using h1), hq]; rfl

/-- Unfolding of `legs` on a non-empty trace. -/
theorem legs_cons_eq (p : Position) (rest : List Position) :
    legs (p :: rest) =
      (if (rest.foldl legsStep (p, p, [])).2.2.isEmpty then none
       else some (match (rest.foldl legsStep (p, p, [])).1 with
         | Position.Flying _ _ _ =>
             setLastTo (rest.foldl legsStep (p, p, [])).2.2
               (rest.foldl legsStep (p, p, [])).1
         | _ => (rest.foldl legsStep (p, p, [])).2.2)) := rfl

/-! ## Claim theorems about the leg segmenter -/

/-- C5: on the five-sample trace
`[Grounded, Grounded, Flying(5000), Flying(6000), Grounded]` the segmenter
returns exactly one leg, whose `from` is the second Grounded sample (the one
just before liftoff) and whose `to` is the final Grounded sample. -/
theorem legs_simple_flight (a1 b1 a2 b2 a3 b3 a4 b4 a5 b5 : ℚ) :
    legs [Position.Grounded a1 b1, Position.Grounded a2 b2,
          Position.Flying a3 b3 5000, Position.Flying a4 b4 6000,
          Position.Grounded a5 b5]
      = some [⟨Position.Grounded a2 b2, Position.Grounded a5 b5⟩] := rfl

/-- C8: a sample whose altitude field is a number below 1000 is normalised to
`Grounded`, identically to the explicit `"ground"` sentinel, while a numeric
altitude of at least 1000 yields `Flying` with that altitude. -/
theorem altitude_threshold (lat long x : ℚ) :
    (x < 1000 →
      toPosition lat long (Json.num x) = toPosition lat long (Json.str "ground".toList) ∧
      toPosition lat long (Json.num x) = Position.Grounded lat long) ∧
    (1000 ≤ x → toPosition lat long (Json.num x) = Position.Flying lat long x) := by
  constructor
  · intro h
    simp [toPosition, Json.as_str, Json.as_f64, h]
  · intro h
    simp [toPosition, Json.as_str, Json.as_f64, not_lt.2 h]

/-- Witness for C8 at altitudes 500 and 2000. -/
theorem altitude_threshold_witness :
    toPosition 1 2 (Json.num 500) = Position.Grounded 1 2 ∧
    toPosition 1 2 (Json.num 2000) = Position.Flying 1 2 2000 :=
  ⟨((altitude_threshold 1 2 500).1 (by norm_num)).2,
   (altitude_threshold 1 2 2000).2 (by norm_num)⟩

/-- C10: a sample whose fourth field is neither the string `"ground"` nor a
number (e.g. null or another string) does not fail parsing: it is treated as
`Grounded` at the sample's coordinates. -/
theorem non_number_fourth_field_grounded (lat long : ℚ) (alt : Json)
    (h1 : ∀ x : ℚ, alt ≠ Json.num x) (h2 : alt ≠ Json.str "ground".toList) :
    toPosition lat long alt = Position.Grounded lat long := by
  match alt with
  | Json.num x => exact absurd rfl (h1 x)
  | Json.other => rfl
  | Json.str s =>
    have hs : s ≠ "ground".toList := fun h => h2 (by rw [h])
    simp only [toPosition, Json.as_str, Json.as_f64, Option.bind_eq_bind,
      Option.some_bind, Option.none_bind]
    rw [if_neg hs]
    rfl

/-- Witness for C10 at a null-like field and at the string `"none"`. -/
theorem non_number_fourth_field_grounded_witness :
    toPosition 3 4 Json.other = Position.Grounded 3 4 ∧
    toPosition 3 4 (Json.str "none".toList) = Position.Grounded 3 4 := by
  constructor
  · exact non_number_fourth_field_grounded 3 4 Json.other
      (fun x h => Json.noConfusion h) (fun h => Json.noConfusion h)
  · exact non_number_fourth_field_grounded 3 4 (Json.str "none".toList)
      (fun x h => Json.noConfusion h) (by decide)

/-- C2 counterexample: the one-sample trace `[Grounded(0, 0)]` is non-empty and
produces zero legs (the fatal abort), yet its sample is not `Flying`: zero legs
does not imply the aircraft was airborne for the whole window. -/
theorem legs_zero_legs_all_flying_cex :
    ¬ ((legs [Position.Grounded 0 0] = none) →
        ∀ p ∈ [Position.Grounded 0 0], p.isFlying = true) := by
  decide

/-- C2 amended: a non-empty chronologically sorted trace produces zero legs
(hence hits the fatal abort) only when the vertical state never changes over
the whole trace — every sample has the same grounded/flying state as the
first (all `Flying`, or all `Grounded`). -/
theorem legs_none_constant_state (p : Position) (rest : List Position)
    (h : legs (p :: rest) = none) :
    ∀ q ∈ p :: rest, q.isFlying = p.isFlying := by
  have hempty : (rest.foldl legsStep (p, p, [])).2.2 = [] := by
    rw [legs_cons_eq] at h
    cases hl : (rest.foldl legsStep (p, p, [])).2.2.isEmpty
    · rw [hl] at h; simp at h
    · exact List.isEmpty_iff.1 hl
  have hfold := foldl_legsStep_empty rest p p [] hempty
  intro q hq
  rcases List.mem_cons.1 hq with h1 | h1
  · rw [h1]
  · exact hfold.2 q h1

/-- Witness for the amended C2: an all-Flying two-sample trace aborts with
zero legs and indeed has constant vertical state. -/
theorem legs_none_constant_state_witness :
    legs [Position.Flying 0 0 2000, Position.Flying 1 1 3000] = none ∧
    ∀ q ∈ [Position.Flying 0 0 2000, Position.Flying 1 1 3000],
      q.isFlying = (Position.Flying 0 0 2000).isFlying :=
  ⟨by decide, legs_none_constant_state _ _ (by decide)⟩

/-- C3: evaluation at the failing input.  A raw sample with latitude 10
(index 1) and longitude 20 (index 2) yields a Position whose `pos()` is
`(10, 20)` — latitude first — and not `(20, 10)`: `legs` constructs
`Grounded(lat, long)` while `pos` destructures its fields as `(long, lat)`. -/
theorem pos_swaps_lat_long :
    (toPosition 10 20 (Json.str "ground".toList)).pos = (10, 20) ∧
    (toPosition 10 20 (Json.str "ground".toList)).pos ≠ (20, 10) := by
  decide

/-! ## `src/trace_month.rs`: calendar dates

`time::Date` values are modelled as (year, month, day) triples; the `time`
crate's calendar arithmetic (proleptic Gregorian) is embedded below. -/

/-- A calendar date, as used by src/trace_month.rs via `time::Date`. -/
structure Date where
  year : Int
  month : Nat
  day : Nat
deriving DecidableEq

/-- Proleptic-Gregorian leap year (the `time` crate's `is_leap_year`). -/
def isLeapYear (y : Int) : Bool :=
  y % 4 = 0 && (y % 100 ≠ 0 || y % 400 = 0)

/-- Days of a calendar month (the `time` crate's `days_in_year_month`). -/
def daysInMonth (y : Int) (m : Nat) : Nat :=
  if m = 2 then (if isLeapYear y then 29 else 28)
  else if m = 4 ∨ m = 6 ∨ m = 9 ∨ m = 11 then 30
  else 31

/-- A structurally valid calendar date (what `time::Date` can represent,
ignoring the crate's year-range limits, which no claim depends on). -/
def Date.Valid (d : Date) : Prop :=
  1 ≤ d.month ∧ d.month ≤ 12 ∧ 1 ≤ d.day ∧ d.day ≤ daysInMonth d.year d.month

instance (d : Date) : Decidable d.Valid := by
  unfold Date.Valid; infer_instance

/-- The strict order of `time::Date` (lexicographic on year, month, day). -/
def Date.lt (a b : Date) : Prop :=
  a.year < b.year ∨
    (a.year = b.year ∧ (a.month < b.month ∨ (a.month = b.month ∧ a.day < b.day)))

instance (a b : Date) : Decidable (Date.lt a b) := by
  unfold Date.lt; infer_instance

/-- Model of `date + Duration::days(1)`: the next calendar day. -/
def Date.next (d : Date) : Date :=
  if d.day < daysInMonth d.year d.month then ⟨d.year, d.month, d.day + 1⟩
  else if d.month < 12 then ⟨d.year, d.month + 1, 1⟩
  else ⟨d.year + 1, 1, 1⟩

/-- Linearisation of dates: injective and order-preserving on valid dates
(month ≤ 12, day ≤ 31 fit in slots of width 31 and 372). -/
def Date.key (d : Date) : Int :=
  d.year * 372 + (((d.month - 1) * 31 + (d.day - 1) : Nat) : Int)

/-- Fuel-indexed enumeration of `[cur, stop)` by daily increments. -/
def dateRangeGo : Nat → Date → Date → List Date
  | 0, _, _ => []
  | n + 1, cur, stop =>
      if Date.lt cur stop then cur :: dateRangeGo n cur.next stop else []

/-- Modelled from the spec: `DateIter` (`super::DateIter` with
`increment: Duration::days(1)`, whose definition is not under src/)
enumerates every date of the half-open range `[a, b)` via fixed daily
increments.  The fuel `(b.key - a.key).toNat` dominates the number of steps
for valid dates (proved below). -/
def dateRange (a b : Date) : List Date :=
  dateRangeGo (b.key - a.key).toNat a b

/-! ### Calendar lemmas -/

theorem daysInMonth_bounds (y : Int) (m : Nat) :
    28 ≤ daysInMonth y m ∧ daysInMonth y m ≤ 31 := by
  unfold daysInMonth
  split_ifs <;> omega

theorem daysInMonth_december (y : Int) : daysInMonth y 12 = 31 := by
  simp [daysInMonth]

/-- Stepping one day preserves validity. -/
theorem Date.next_valid (d : Date) (h : d.Valid) : d.next.Valid := by
  obtain ⟨y, m, dd⟩ := d
  obtain ⟨h1, h2, h3, h4⟩ := h
  have hb := daysInMonth_bounds y m
  have hb2 := daysInMonth_bounds y (m + 1)
  have hb3 := daysInMonth_bounds (y + 1) 1
  simp only [Date.next, Date.Valid] at *
  split_ifs <;> simp_all <;> omega

/-- Stepping one day strictly increases the key. -/
theorem Date.key_lt_next (d : Date) (h : d.Valid) : d.key < d.next.key := by
  obtain ⟨y, m, dd⟩ := d
  obtain ⟨h1, h2, h3, h4⟩ := h
  have hb := daysInMonth_bounds y m
  simp only [Date.next]
  split_ifs <;> simp only [Date.key] at * <;> omega

/-- The order of dates agrees with the order of keys, on valid dates. -/
theorem Date.key_lt_of_lt (a b : Date) (ha : a.Valid) (hb : b.Valid)
    (h : Date.lt a b) : a.key < b.key := by
  obtain ⟨ya, ma, da⟩ := a
  obtain ⟨yb, mb, db⟩ := b
  obtain ⟨h1, h2, h3, h4⟩ := ha
  obtain ⟨g1, g2, g3, g4⟩ := hb
  have hba := daysInMonth_bounds ya ma
  have hbb := daysInMonth_bounds yb mb
  simp only [Date.lt, Date.key] at *
  omega

/-- Dates are totally ordered: trichotomy for `Date.lt`. -/
theorem Date.lt_trichotomyD (a b : Date) : Date.lt a b ∨ a = b ∨ Date.lt b a := by
  obtain ⟨ya, ma, da⟩ := a
  obtain ⟨yb, mb, db⟩ := b
  simp only [Date.lt, Date.mk.injEq]
  omega

/-- Key order implies date order, on valid dates. -/
theorem Date.lt_of_key_lt (a b : Date) (ha : a.Valid) (hb : b.Valid)
    (h : a.key < b.key) : Date.lt a b := by
  rcases Date.lt_trichotomyD a b with h1 | h1 | h1
  · exact h1
  · subst h1; omega
  · exact absurd (Date.key_lt_of_lt b a hb ha h1) (by omega)

/-- The key is injective on valid dates. -/
theorem Date.key_injD (a b : Date) (ha : a.Valid) (hb : b.Valid)
    (h : a.key = b.key) : a = b := by
  rcases Date.lt_trichotomyD a b with h1 | h1 | h1
  · exact absurd (Date.key_lt_of_lt a b ha hb h1) (by omega)
  · exact h1
  · exact absurd (Date.key_lt_of_lt b a hb ha h1) (by omega)

/-- Successor property: no valid date has a key strictly
between a valid date's and its successor's. -/
theorem Date.key_next_le (cur x : Date) (hc : cur.Valid) (hx : x.Valid)
    (h : cur.key < x.key) : cur.next.key ≤ x.key := by
  obtain ⟨yc, mc, dc⟩ := cur
  obtain ⟨yx, mx, dx⟩ := x
  obtain ⟨h1, h2, h3, h4⟩ := hc
  obtain ⟨g1, g2, g3, g4⟩ := hx
  have hbc := daysInMonth_bounds yc mc
  have hbx := daysInMonth_bounds yx mx
  by_cases hym : yx = yc ∧ mx = mc
  · obtain ⟨e1, e2⟩ := hym
    subst e1; subst e2
    simp only [Date.next]
    split_ifs <;> simp only [Date.key] at * <;> omega
  · rw [not_and_or] at hym
    have h12 : daysInMonth yc 12 = 31 := daysInMonth_december yc
    simp only [Date.next]
    split_ifs <;> simp only [Date.key] at * <;> omega

/-! ### Properties of the date-range enumeration -/

/-- With `cur ≥ stop` the enumeration is empty, whatever the fuel. -/
theorem dateRangeGo_nil (n : Nat) (cur stop : Date) (h : ¬ Date.lt cur stop) :
    dateRangeGo n cur stop = [] := by
  cases n <;> simp [dateRangeGo, h]

/-- The enumeration is fuel-insensitive once the fuel dominates the key gap. -/
theorem dateRangeGo_congr (stop : Date) (hstop : stop.Valid) :
    ∀ (n m : Nat) (cur : Date), cur.Valid → (stop.key - cur.key).toNat ≤ n →
      (stop.key - cur.key).toNat ≤ m →
      dateRangeGo n cur stop = dateRangeGo m cur stop := by
  intro n
  induction n with
  | zero =>
    intro m cur hc h0 _
    by_cases hlt : Date.lt cur stop
    · have := Date.key_lt_of_lt cur stop hc hstop hlt
      omega
    · rw [dateRangeGo_nil 0 cur stop hlt, dateRangeGo_nil m cur stop hlt]
  | succ n ih =>
    intro m cur hc hn hm
    by_cases hlt : Date.lt cur stop
    · have hk := Date.key_lt_of_lt cur stop hc hstop hlt
      match m with
      | 0 => omega
      | m + 1 =>
        have hstep := Date.key_lt_next cur hc
        simp only [dateRangeGo, if_pos hlt]
        rw [ih m cur.next (Date.next_valid cur hc) (by omega) (by omega)]
    · rw [dateRangeGo_nil (n + 1) cur stop hlt, dateRangeGo_nil m cur stop hlt]

/-- Unfolding the range when it is non-empty. -/
theorem dateRange_cons (a b : Date) (ha : a.Valid) (hb : b.Valid)
    (hab : Date.lt a b) : dateRange a b = a :: dateRange a.next b := by
  have hk := Date.key_lt_of_lt a b ha hb hab
  have hstep := Date.key_lt_next a ha
  unfold dateRange
  obtain ⟨n, hn⟩ : ∃ n, (b.key - a.key).toNat = n + 1 :=
    ⟨(b.key - a.key).toNat - 1, by omega⟩
  rw [hn]
  simp only [dateRangeGo, if_pos hab]
  rw [dateRangeGo_congr b hb n ((b.key - a.next.key).toNat) a.next
    (Date.next_valid a ha) (by omega) (by omega)]

/-- The empty range. -/
theorem dateRange_nil (a b : Date) (h : ¬ Date.lt a b) : dateRange a b = [] :=
  dateRangeGo_nil _ a b h

/-- Everything enumerated is valid and lies in the half-open key interval. -/
theorem mem_dateRangeGo_of (stop : Date) (hstop : stop.Valid) :
    ∀ (n : Nat) (cur x : Date), cur.Valid → x ∈ dateRangeGo n cur stop →
      x.Valid ∧ cur.key ≤ x.key ∧ x.key < stop.key := by
  intro n
  induction n with
  | zero => intro cur x _ hx; simp [dateRangeGo] at hx
  | succ n ih =>
    intro cur x hc hx
    by_cases hlt : Date.lt cur stop
    · simp only [dateRangeGo, if_pos hlt, List.mem_cons] at hx
      rcases hx with rfl | hx
      · exact ⟨hc, le_refl _, Date.key_lt_of_lt x stop hc hstop hlt⟩
      · have h2 := ih cur.next x (Date.next_valid cur hc) hx
        have hstep := Date.key_lt_next cur hc
        exact ⟨h2.1, by omega, h2.2.2⟩
    · simp [dateRangeGo, hlt] at hx

/-- Every valid date of the half-open key interval is enumerated, given
enough fuel. -/
theorem mem_dateRangeGo_to (stop : Date) (hstop : stop.Valid) :
    ∀ (n : Nat) (cur x : Date), cur.Valid → x.Valid →
      cur.key ≤ x.key → x.key < stop.key → (stop.key - cur.key).toNat ≤ n →
      x ∈ dateRangeGo n cur stop := by
  intro n
  induction n with
  | zero => intro cur x _ _ h1 h2 h3; omega
  | succ n ih =>
    intro cur x hc hx h1 h2 h3
    have hlt : Date.lt cur stop := Date.lt_of_key_lt cur stop hc hstop (by omega)
    simp only [dateRangeGo, if_pos hlt, List.mem_cons]
    by_cases hcx : x = cur
    · exact Or.inl hcx
    · right
      have hne : cur.key < x.key := by
        rcases lt_or_eq_of_le h1 with h | h
        · exact h
        · exact absurd (Date.key_injD cur x hc hx h) (fun he => hcx he.symm)
      have hsucc := Date.key_next_le cur x hc hx hne
      have hstep := Date.key_lt_next cur hc
      exact ih cur.next x (Date.next_valid cur hc) hx hsucc h2 (by omega)

/-- The range `[a, b)` contains exactly the valid dates at or after `a` and
strictly before `b`. -/
theorem mem_dateRange_iff (a b x : Date) (ha : a.Valid) (hb : b.Valid) :
    x ∈ dateRange a b ↔ x.Valid ∧ a.key ≤ x.key ∧ x.key < b.key := by
  constructor
  · exact fun h => mem_dateRangeGo_of b hb _ a x ha h
  · intro h
    exact mem_dateRangeGo_to b hb _ a x ha h.1 h.2.1 h.2.2 (le_refl _)

/-- The enumerated dates are strictly increasing in key. -/
theorem dateRangeGo_pairwise (stop : Date) (hstop : stop.Valid) :
    ∀ (n : Nat) (cur : Date), cur.Valid →
      (dateRangeGo n cur stop).Pairwise (fun x y => x.key < y.key) := by
  intro n
  induction n with
  | zero => intro cur _; simp [dateRangeGo]
  | succ n ih =>
    intro cur hc
    by_cases hlt : Date.lt cur stop
    · simp only [dateRangeGo, if_pos hlt]
      refine List.Pairwise.cons ?_ (ih cur.next (Date.next_valid cur hc))
      intro y hy
      have h2 := mem_dateRangeGo_of stop hstop n cur.next y (Date.next_valid cur hc) hy
      have hstep := Date.key_lt_next cur hc
      omega
    · simp [dateRangeGo, hlt]

/-- No date is enumerated twice. -/
theorem dateRange_nodup (a b : Date) (ha : a.Valid) (hb : b.Valid) :
    (dateRange a b).Nodup :=
  (dateRangeGo_pairwise b hb ((b.key - a.key).toNat) a ha).imp
    (fun h he => (ne_of_lt h) (congrArg Date.key he))

/-! ## `src/trace_month.rs`: month buckets and the range assembler -/

/-- First day of a date's month:
`time::Date::from_calendar_date(x.year(), x.month(), 1)` as used in
`aircraft_positions` (src/trace_month.rs line 115). -/
def firstOfMonth (d : Date) : Date := ⟨d.year, d.month, 1⟩

/-- Function `get_month` (src/trace_month.rs lines 47-62): the first day of the
date's month together with the first day of the following month;
`current.month().next()` wraps December to January, in which case the year
is incremented. -/
def get_month (current : Date) : Date × Date :=
  let first_of_month : Date := ⟨current.year, current.month, 1⟩
  let next_month : Nat := if current.month = 12 then 1 else current.month + 1
  let first_of_next_month : Date :=
    if next_month = 1 then ⟨current.year + 1, 1, 1⟩
    else ⟨current.year, next_month, 1⟩
  (first_of_month, first_of_next_month)

/-- Model of `collect::<Result<Vec<_>, _>>()` / `try_collect`: all or nothing. -/
def try_collect {α : Type} : List (Option α) → Option (List α)
  | [] => some []
  | none :: _ => none
  | some x :: rest =>
    match try_collect rest with
    | some xs => some (x :: xs)
    | none => none

/-- Modelled from the spec: `cached_aircraft_positions`
(`super::icao_to_trace`, not under src/) resolves one day-level fetch per
date of `[a, b)` — "on miss, it must fetch every day in that month via the
day-level TraceFetcher contract".  The per-day telemetry is abstracted as a
function from date to the day's positions. -/
def cached_aircraft_positions (telemetry : Date → List Position) (a b : Date) :
    List (Date × List Position) :=
  (dateRange a b).map fun d => (d, telemetry d)

/-- Function `month_positions` (src/trace_month.rs lines 64-92) on a cache miss: the
`assert_eq!(month.day(), 1)` is modelled by `none`; otherwise the producer
run by `cached_call` fetches `cached_aircraft_positions(from, to)` with
`(from, to) = get_month(&month)` (the serde round-trip through the stored
blob is the identity on the mapping). -/
def month_positions (telemetry : Date → List Position) (month : Date) :
    Option (List (Date × List Position)) :=
  if month.day = 1 then
    some (cached_aircraft_positions telemetry (get_month month).1 (get_month month).2)
  else none

/-- The distinct months spanned by `[a, b)` as first-of-month dates:
`dates.clone().map(|x| from_calendar_date(x.year(), x.month(), 1))
.collect::<HashSet<_>>()` (src/trace_month.rs lines 112-117).  The
`HashSet` is modelled as a deduplicated list; `aircraft_positions`'s final
mapping is keyed by date, hence independent of the set's iteration order. -/
def monthsOf (a b : Date) : List Date :=
  ((dateRange a b).map firstOfMonth).dedup

/-- Function `aircraft_positions` (src/trace_month.rs lines 100-143): enumerate the
dates of `[a, b)`, resolve each distinct month bucket (`try_collect` fails
if any month task fails), flatten the per-month maps into one date-keyed
mapping, and re-slice by the requested dates.  The fatal
`positions.remove(&date).expect(…)` on a missing date is modelled by the
lookup returning `none` inside the final `try_collect`. -/
def aircraft_positions (telemetry : Date → List Position) (a b : Date) :
    Option (List (Date × List Position)) :=
  match try_collect ((monthsOf a b).map (month_positions telemetry)) with
  | none => none
  | some monthMaps =>
    try_collect ((dateRange a b).map fun date =>
      (monthMaps.flatten.lookup date).map fun p => (date, p))

/-! ### Lemmas about months -/

theorem Date.valid_mk (y : Int) (mo d : Nat) :
    (Date.mk y mo d).Valid ↔ (1 ≤ mo ∧ mo ≤ 12 ∧ 1 ≤ d ∧ d ≤ daysInMonth y mo) :=
  Iff.rfl

theorem Date.key_mk (y : Int) (mo d : Nat) :
    (Date.mk y mo d).key = y * 372 + (((mo - 1) * 31 + (d - 1) : Nat) : Int) := rfl

theorem get_month_fst (m : Date) : (get_month m).1 = ⟨m.year, m.month, 1⟩ := rfl

theorem get_month_snd (m : Date) (h1 : 1 ≤ m.month) :
    (get_month m).2 = (if m.month = 12 then (⟨m.year + 1, 1, 1⟩ : Date)
                       else ⟨m.year, m.month + 1, 1⟩) := by
  unfold get_month
  by_cases hc : m.month = 12
  · simp [hc]
  · simp only [if_neg hc]
    have : ¬ (m.month + 1 = 1) := by omega
    simp [this, hc]

theorem firstOfMonth_valid (d : Date) (h : d.Valid) : (firstOfMonth d).Valid := by
  obtain ⟨h1, h2, h3, h4⟩ := h
  have hb := daysInMonth_bounds d.year d.month
  unfold firstOfMonth
  rw [Date.valid_mk]
  omega

/-- The month bucket of a valid date `m` covers exactly the valid dates of
`m`'s calendar month. -/
theorem mem_month_range (m : Date) (hm : m.Valid) (x : Date) :
    x ∈ dateRange (get_month m).1 (get_month m).2 ↔
      x.Valid ∧ x.year = m.year ∧ x.month = m.month := by
  obtain ⟨h1, h2, h3, h4⟩ := hm
  have hb := daysInMonth_bounds m.year m.month
  have hb1 := daysInMonth_bounds (m.year + 1) 1
  have hb2 := daysInMonth_bounds m.year (m.month + 1)
  have hfrom : (get_month m).1.Valid := by
    rw [get_month_fst, Date.valid_mk]; omega
  have hto : (get_month m).2.Valid := by
    rw [get_month_snd m h1]
    split_ifs with hc <;> rw [Date.valid_mk] <;> omega
  have hkfst : (get_month m).1.key
      = m.year * 372 + ((((m.month - 1) * 31 : Nat) : Int)) := by
    rw [get_month_fst, Date.key_mk]; omega
  have hksnd : (get_month m).2.key
      = m.year * 372 + (((m.month * 31 : Nat) : Int)) := by
    rw [get_month_snd m h1]
    split_ifs with hc <;> rw [Date.key_mk] <;> omega
  rw [mem_dateRange_iff _ _ x hfrom hto, hkfst, hksnd]
  constructor
  · rintro ⟨hxv, hk1, hk2⟩
    refine ⟨hxv, ?_⟩
    obtain ⟨g1, g2, g3, g4⟩ := hxv
    have hbx := daysInMonth_bounds x.year x.month
    simp only [Date.key] at hk1 hk2
    omega
  · rintro ⟨hxv, hy, hmo⟩
    refine ⟨hxv, ?_, ?_⟩ <;>
      · obtain ⟨g1, g2, g3, g4⟩ := hxv
        have hbx := daysInMonth_bounds x.year x.month
        simp only [Date.key]
        omega

/-- Applying `try_collect` to a map all of whose elements succeed. -/
theorem try_collect_map {α β : Type} (l : List α) (f : α → Option β) (g : α → β)
    (h : ∀ x ∈ l, f x = some (g x)) : try_collect (l.map f) = some (l.map g) := by
  induction l with
  | nil => rfl
  | cons x xs ih =>
    rw [List.map_cons, h x (List.mem_cons_self x xs)]
    simp only [try_collect]
    rw [ih (fun y hy => h y (List.mem_cons_of_mem x hy))]
    rfl

/-- Association-list lookup when all bindings of the key agree on the value
and at least one binding exists. -/
theorem lookup_eq_of {β : Type} (l : List (Date × β)) (k : Date) (v : β)
    (hex : (k, v) ∈ l) (huniq : ∀ p ∈ l, p.1 = k → p.2 = v) :
    l.lookup k = some v := by
  induction l with
  | nil => simp at hex
  | cons p rest ih =>
    rcases p with ⟨k', v'⟩
    by_cases hk : k = k'
    · subst hk
      have hv : v' = v := huniq (k, v') (List.mem_cons_self _ _) rfl
      simp [List.lookup, hv]
    · have hex' : (k, v) ∈ rest := by
        rcases List.mem_cons.1 hex with h | h
        · exact absurd (congrArg Prod.fst h) hk
        · exact h
      have hbeq : (k == k') = false := by simpa using hk
      simp only [List.lookup, hbeq]
      exact ih hex' (fun p hp => huniq p (List.mem_cons_of_mem _ hp))

/-- A non-empty list whose elements all equal `c` deduplicates to `[c]`. -/
theorem dedup_const {α : Type} [DecidableEq α] (l : List α) (c : α) (hne : l ≠ [])
    (h : ∀ x ∈ l, x = c) : l.dedup = [c] := by
  induction l with
  | nil => exact absurd rfl hne
  | cons x xs ih =>
    have hx : x = c := h x (List.mem_cons_self x xs)
    subst hx
    cases xs with
    | nil => simp
    | cons y ys =>
      have hy : y = x := h y (List.mem_cons_of_mem x (List.mem_cons_self y ys))
      have hmem : x ∈ y :: ys := by
        rw [← hy]; exact List.mem_cons_self y ys
      rw [List.dedup_cons_of_mem hmem]
      exact ih (by simp) (fun z hz => h z (List.mem_cons_of_mem _ hz))

/-! ## Claim theorems about the month-bucketed assembler -/

/-- C1: for every aircraft telemetry and every half-open range `[a, b)`, the
mapping assembled by `aircraft_positions` succeeds (no fatal missing-date
abort) and its key list is exactly the enumerated dates of `[a, b)`: no
requested date missing, none duplicated, and none outside the range (an
empty position list for a date being permitted — the telemetry value is
unconstrained). -/
theorem aircraft_positions_range_coverage (telemetry : Date → List Position)
    (a b : Date) (ha : a.Valid) (hb : b.Valid) :
    ∃ res, aircraft_positions telemetry a b = some res ∧
      res.map Prod.fst = dateRange a b ∧
      (res.map Prod.fst).Nodup ∧
      ∀ x, x ∈ res.map Prod.fst ↔
        x.Valid ∧ (Date.lt a x ∨ a = x) ∧ Date.lt x b := by
  have hmonth : ∀ m ∈ monthsOf a b, month_positions telemetry m =
      some (cached_aircraft_positions telemetry (get_month m).1 (get_month m).2) := by
    intro m hm
    have hd1 : m.day = 1 := by
      rcases List.mem_map.1 (List.mem_dedup.1 hm) with ⟨d, _, rfl⟩
      rfl
    simp [month_positions, hd1]
  have h1 : try_collect ((monthsOf a b).map (month_positions telemetry))
      = some ((monthsOf a b).map fun m =>
          cached_aircraft_positions telemetry (get_month m).1 (get_month m).2) :=
    try_collect_map _ _ _ hmonth
  have hlookup : ∀ date ∈ dateRange a b,
      (((monthsOf a b).map fun m =>
        cached_aircraft_positions telemetry (get_month m).1 (get_month m).2).flatten.lookup
          date) = some (telemetry date) := by
    intro date hdate
    have hdv : date.Valid := (mem_dateRangeGo_of b hb _ a date ha hdate).1
    apply lookup_eq_of
    · rw [List.mem_flatten]
      refine ⟨cached_aircraft_positions telemetry
        (get_month (firstOfMonth date)).1 (get_month (firstOfMonth date)).2, ?_, ?_⟩
      · exact List.mem_map.2
          ⟨firstOfMonth date, List.mem_dedup.2 (List.mem_map.2 ⟨date, hdate, rfl⟩), rfl⟩
      · unfold cached_aircraft_positions
        refine List.mem_map.2 ⟨date, ?_, rfl⟩
        rw [mem_month_range (firstOfMonth date) (firstOfMonth_valid date hdv) date]
        exact ⟨hdv, rfl, rfl⟩
    · intro p hp hpk
      rcases List.mem_flatten.1 hp with ⟨L, hL, hpL⟩
      rcases List.mem_map.1 hL with ⟨m, _, rfl⟩
      rcases List.mem_map.1 hpL with ⟨d, _, rfl⟩
      rw [← hpk]
  have h2 : try_collect ((dateRange a b).map fun date =>
      ((((monthsOf a b).map fun m =>
        cached_aircraft_positions telemetry (get_month m).1 (get_month m).2).flatten).lookup
          date).map fun p => (date, p))
      = some ((dateRange a b).map fun date => (date, telemetry date)) := by
    apply try_collect_map
    intro date hdate
    rw [hlookup date hdate]
    rfl
  have hfst : ((dateRange a b).map fun date => (date, telemetry date)).map Prod.fst
      = dateRange a b := by
    rw [List.map_map]
    have hcomp : (Prod.fst ∘ fun date => (date, telemetry date)) = id := rfl
    rw [hcomp, List.map_id]
  refine ⟨(dateRange a b).map fun date => (date, telemetry date), ?_, hfst, ?_, ?_⟩
  · unfold aircraft_positions
    rw [h1]
    exact h2
  · rw [hfst]
    exact dateRange_nodup a b ha hb
  · intro x
    rw [hfst, mem_dateRange_iff a b x ha hb]
    constructor
    · rintro ⟨hxv, hk1, hk2⟩
      refine ⟨hxv, ?_, Date.lt_of_key_lt x b hxv hb hk2⟩
      rcases lt_or_eq_of_le hk1 with h | h
      · exact Or.inl (Date.lt_of_key_lt a x ha hxv h)
      · exact Or.inr (Date.key_injD a x ha hxv h)
    · rintro ⟨hxv, h1x, h2x⟩
      refine ⟨hxv, ?_, Date.key_lt_of_lt x b hxv hb h2x⟩
      rcases h1x with h | h
      · exact le_of_lt (Date.key_lt_of_lt a x ha hxv h)
      · exact le_of_eq (congrArg Date.key h)

/-- Witness for C1 on the leap-February range `[2024-01-30, 2024-02-02)`. -/
theorem aircraft_positions_range_coverage_witness :
    ∃ res, aircraft_positions (fun _ => []) ⟨2024, 1, 30⟩ ⟨2024, 2, 2⟩ = some res ∧
      res.map Prod.fst = dateRange ⟨2024, 1, 30⟩ ⟨2024, 2, 2⟩ ∧
      (res.map Prod.fst).Nodup ∧
      ∀ x, x ∈ res.map Prod.fst ↔
        x.Valid ∧ (Date.lt ⟨2024, 1, 30⟩ x ∨ (⟨2024, 1, 30⟩ : Date) = x) ∧
          Date.lt x ⟨2024, 2, 2⟩ :=
  aircraft_positions_range_coverage (fun _ => []) _ _ (by decide) (by decide)

/-- C6: on a cache miss for a month given as its first day, `month_positions`
fetches via `get_month` exactly the day range from the 1st of that month to
the 1st of the next month (December rolling over to January 1 of the next
year), i.e. every valid day of that calendar month. -/
theorem month_positions_full_month (telemetry : Date → List Position) (m : Date)
    (hm : m.Valid) (hd : m.day = 1) :
    month_positions telemetry m =
      some (cached_aircraft_positions telemetry (get_month m).1 (get_month m).2) ∧
    get_month m = ((⟨m.year, m.month, 1⟩ : Date),
      if m.month = 12 then (⟨m.year + 1, 1, 1⟩ : Date) else ⟨m.year, m.month + 1, 1⟩) ∧
    ∀ x, x ∈ (cached_aircraft_positions telemetry
        (get_month m).1 (get_month m).2).map Prod.fst ↔
      (x.Valid ∧ x.year = m.year ∧ x.month = m.month) := by
  refine ⟨by simp [month_positions, hd], ?_, ?_⟩
  · rw [Prod.ext_iff]
    exact ⟨get_month_fst m, get_month_snd m hm.1⟩
  · intro x
    unfold cached_aircraft_positions
    rw [List.map_map]
    have : (Prod.fst ∘ fun d => (d, telemetry d)) = id := rfl
    rw [this, List.map_id]
    exact mem_month_range m hm x

/-- Witness for C6 at December 2023: the bucket runs from 2023-12-01 to
2024-01-01 and contains 2023-12-31. -/
theorem month_positions_full_month_witness :
    month_positions (fun _ => []) ⟨2023, 12, 1⟩ =
      some (cached_aircraft_positions (fun _ => [])
        (get_month ⟨2023, 12, 1⟩).1 (get_month ⟨2023, 12, 1⟩).2) ∧
    get_month ⟨2023, 12, 1⟩ = ((⟨2023, 12, 1⟩ : Date), (⟨2024, 1, 1⟩ : Date)) ∧
    (⟨2023, 12, 31⟩ : Date) ∈ (cached_aircraft_positions (fun _ => [])
        (get_month ⟨2023, 12, 1⟩).1 (get_month ⟨2023, 12, 1⟩).2).map Prod.fst := by
  have h := month_positions_full_month (fun _ => []) ⟨2023, 12, 1⟩ (by decide) rfl
  refine ⟨h.1, ?_, ?_⟩
  · simpa using h.2.1
  · exact (h.2.2 ⟨2023, 12, 31⟩).2 ⟨by decide, rfl, rfl⟩

/-- C9: a range of at least one day lying entirely within one calendar month
produces exactly one month-fetch task: the deduplicated month set is the
single first-of-month of the range's start. -/
theorem month_dedup_single (a b : Date) (ha : a.Valid) (hb : b.Valid)
    (hab : Date.lt a b)
    (hsame : ∀ d ∈ dateRange a b, d.year = a.year ∧ d.month = a.month) :
    monthsOf a b = [firstOfMonth a] := by
  have hcons := dateRange_cons a b ha hb hab
  have hne : dateRange a b ≠ [] := by rw [hcons]; simp
  have hall : ∀ x ∈ (dateRange a b).map firstOfMonth, x = firstOfMonth a := by
    intro x hx
    rcases List.mem_map.1 hx with ⟨d, hd, rfl⟩
    have hdm := hsame d hd
    unfold firstOfMonth
    rw [hdm.1, hdm.2]
  unfold monthsOf
  exact dedup_const _ _ (by simpa using hne) hall

/-- Witness for C9 on the five-day range `[2024-03-05, 2024-03-10)`. -/
theorem month_dedup_single_witness :
    monthsOf ⟨2024, 3, 5⟩ ⟨2024, 3, 10⟩ = [firstOfMonth ⟨2024, 3, 5⟩] :=
  month_dedup_single _ _ (by decide) (by decide) (by decide) (by decide)

/-! ## `src/trace_month.rs`: the storage key codec

Rust strings are modelled as `List Char`; every fixed character of the key
template is ASCII, so Rust byte indices coincide with character indices. -/

/-- Constant `{DIRECTORY}` of `pk_to_blob_name`: fixed to `"database"`, matching the
literal `"database/globe_history/"` sliced off by `blob_name_to_pk` and the
listing root of `existing_months_positions_future`. -/
def DIRECTORY : List Char := "database".toList

/-- Constant `{DATABASE}` of `pk_to_blob_name`: fixed to `"globe_history"` (same
evidence as for `DIRECTORY`). -/
def DATABASE : List Char := "globe_history".toList

/-- One decimal digit as a character (`'0' + d`, as the Rust formatter
writes digits). -/
def digitC (d : Nat) : Char := Char.ofNat (48 + d)

/-- Decimal rendering of a natural number (Rust `{}` on an unsigned value:
most significant digit first, no padding). -/
def decimal (n : Nat) : List Char :=
  if n < 10 then [digitC n]
  else decimal (n / 10) ++ [digitC (n % 10)]
decreasing_by exact Nat.div_lt_self (by omega) (by omega)

/-- Rust `{}` on the `i32` year. -/
def yearChars (y : Int) : List Char :=
  if y < 0 then '-' :: decimal (-y).toNat else decimal y.toNat

/-- Rust `{:02}` on the month number (two digits, zero padded; exact for
months 1-12). -/
def month2 (m : Nat) : List Char := [digitC (m / 10), digitC (m % 10)]

/-- Function `pk_to_blob_name` (src/trace_month.rs lines 39-45):
`format!("{DIRECTORY}/{DATABASE}/{}-{:02}/trace_full_{icao}.json",
date.year(), date.month() as u8)`. -/
def pk_to_blob_name (icao : List Char) (date : Date) : List Char :=
  DIRECTORY ++ "/".toList ++ DATABASE ++ "/".toList ++ yearChars date.year
    ++ "-".toList ++ month2 date.month ++ "/trace_full_".toList
    ++ icao ++ ".json".toList

/-- Outcome of `blob_name_to_pk`: a Rust panic (out-of-range slice, failed
`parse().unwrap()` or `try_into().unwrap()`), the `None` skip, or a parsed
month-bucket key. -/
inductive PkResult where
  | panic
  | skip
  | ok (icao : List Char) (d : Date)
deriving DecidableEq

/-- Model of `str::parse` on a digit string: `some` exactly on non-empty
all-digit input (the panicking `unwrap` of a failed parse is handled at the
call site). -/
def parseNat (s : List Char) : Option Nat :=
  if s ≠ [] ∧ s.all (fun c => 48 ≤ c.toNat && c.toNat ≤ 57) then
    some (s.foldl (fun acc c => acc * 10 + (c.toNat - 48)) 0)
  else none

/-- Function `blob_name_to_pk` (src/trace_month.rs lines 15-37).  Slices out of
range and failed unwraps are Rust panics (`PkResult.panic`); the explicit
`return None` for a complete-date key (`bla[7..8] != "/"`) is
`PkResult.skip`; `try_into().unwrap()` to `time::Month` panics outside
1-12; `from_calendar_date(year, month, 1)` always succeeds on day 1. -/
def blob_name_to_pk (blob : List Char) : PkResult :=
  if blob.length < 23 then PkResult.panic
  else
    let bla := blob.drop 23
    if bla.length < 8 then PkResult.panic
    else if bla.get? 7 ≠ some '/' then PkResult.skip
    else
      let date := bla.take 7
      let e := bla.length
      if e - 5 < 19 then PkResult.panic
      else
        let icao := (bla.take (e - 5)).drop 19
        match parseNat (date.take 4), parseNat (date.drop 5) with
        | some y, some mo =>
          if 1 ≤ mo ∧ mo ≤ 12 then PkResult.ok icao ⟨(y : Int), mo, 1⟩
          else PkResult.panic
        | _, _ => PkResult.panic

/-- The per-page processing of `existing_months_positions_future`
(src/trace_month.rs lines 160-173): `filter_map(|blob| blob_name_to_pk(&blob))`
over the listed blob names; a panic inside `blob_name_to_pk` aborts the
whole page (`none`). -/
def page_pks (names : List (List Char)) : Option (List (List Char × Date)) :=
  match names with
  | [] => some []
  | n :: rest =>
    match blob_name_to_pk n with
    | PkResult.panic => none
    | PkResult.skip => page_pks rest
    | PkResult.ok icao d =>
      match page_pks rest with
      | some l => some ((icao, d) :: l)
      | none => none

/-! ### Lemmas about the key codec -/

theorem Date.year_mk (y : Int) (mo d : Nat) : (Date.mk y mo d).year = y := rfl

theorem Date.month_mk (y : Int) (mo d : Nat) : (Date.mk y mo d).month = mo := rfl

theorem digitC_toNat (d : Nat) (h : d < 10) : (digitC d).toNat = 48 + d := by
  interval_cases d <;> decide

theorem decimal_small (n : Nat) (h : n < 10) : decimal n = [digitC n] := by
  conv_lhs => rw [decimal]
  simp [h]

theorem decimal_step (n : Nat) (h : ¬ n < 10) :
    decimal n = decimal (n / 10) ++ [digitC (n % 10)] := by
  conv_lhs => rw [decimal]
  simp [h]

/-- A year between 1000 and 9999 renders as exactly its four digits. -/
theorem decimal_four (n : Nat) (h1 : 1000 ≤ n) (h2 : n ≤ 9999) :
    decimal n = [digitC (n / 1000), digitC (n / 100 % 10),
                 digitC (n / 10 % 10), digitC (n % 10)] := by
  have e2 : n / 10 / 10 = n / 100 := by omega
  have e3 : n / 100 / 10 = n / 1000 := by omega
  have e4 : n / 100 / 10 % 10 = n / 1000 := by omega
  rw [decimal_step n (by omega), decimal_step (n / 10) (by omega), e2,
      decimal_step (n / 100) (by omega), e3, decimal_small (n / 1000) (by omega)]
  have e5 : n / 100 % 10 = n / 100 % 10 := rfl
  simp [e2]

theorem parseNat_four (a b c d : Nat) (ha : a < 10) (hb : b < 10)
    (hc : c < 10) (hd : d < 10) :
    parseNat [digitC a, digitC b, digitC c, digitC d]
      = some (1000 * a + 100 * b + 10 * c + d) := by
  have hcond : (([digitC a, digitC b, digitC c, digitC d] : List Char) ≠ [] ∧
      ([digitC a, digitC b, digitC c, digitC d] : List Char).all
        (fun ch => 48 ≤ ch.toNat && ch.toNat ≤ 57)) := by
    refine ⟨by simp, ?_⟩
    simp only [List.all_cons, List.all_nil, Bool.and_eq_true, decide_eq_true_eq,
      digitC_toNat a ha, digitC_toNat b hb, digitC_toNat c hc, digitC_toNat d hd, and_true]
    omega
  unfold parseNat
  rw [if_pos hcond]
  congr 1
  simp only [List.foldl_cons, List.foldl_nil,
    digitC_toNat a ha, digitC_toNat b hb, digitC_toNat c hc, digitC_toNat d hd]
  omega

theorem parseNat_two (a b : Nat) (ha : a < 10) (hb : b < 10) :
    parseNat [digitC a, digitC b] = some (10 * a + b) := by
  have hcond : (([digitC a, digitC b] : List Char) ≠ [] ∧
      ([digitC a, digitC b] : List Char).all
        (fun ch => 48 ≤ ch.toNat && ch.toNat ≤ 57)) := by
    refine ⟨by simp, ?_⟩
    simp only [List.all_cons, List.all_nil, Bool.and_eq_true, decide_eq_true_eq,
      digitC_toNat a ha, digitC_toNat b hb, and_true]
    omega
  unfold parseNat
  rw [if_pos hcond]
  congr 1
  simp only [List.foldl_cons, List.foldl_nil, digitC_toNat a ha, digitC_toNat b hb]
  omega

/-- Decoding a well-shaped month-bucket key reduces to parsing its date
component and recovering the aircraft id verbatim. -/
theorem blob_name_to_pk_shape (d7 : List Char) (icao : List Char) (h7 : d7.length = 7) :
    blob_name_to_pk ("database/globe_history/".toList
        ++ (d7 ++ ('/' :: ("trace_full_".toList ++ (icao ++ ".json".toList))))) =
      (match parseNat (d7.take 4), parseNat (d7.drop 5) with
        | some y, some mo =>
          if 1 ≤ mo ∧ mo ≤ 12 then PkResult.ok icao ⟨(y : Int), mo, 1⟩
          else PkResult.panic
        | _, _ => PkResult.panic) := by
  have hPl : ("database/globe_history/".toList : List Char).length = 23 := rfl
  have hTl : ("trace_full_".toList : List Char).length = 11 := rfl
  have hSl : (".json".toList : List Char).length = 5 := rfl
  set bla := d7 ++ ('/' :: ("trace_full_".toList ++ (icao ++ ".json".toList))) with hbla
  have hdrop : ("database/globe_history/".toList ++ bla).drop 23 = bla := by
    rw [← hPl]
    exact List.drop_left _ bla
  have hblen : bla.length = 24 + icao.length := by
    rw [hbla]
    simp [h7, hTl, hSl]
    omega
  have hget : bla.get? 7 = some '/' := by
    rw [hbla, List.get?_append_right (by omega : d7.length ≤ 7), h7]
    rfl
  have htake7 : bla.take 7 = d7 := by
    rw [hbla]
    exact List.take_left' h7
  have hicao : (bla.take (bla.length - 5)).drop 19 = icao := by
    have hassoc : bla = (d7 ++ '/' :: "trace_full_".toList) ++ (icao ++ ".json".toList) := by
      rw [hbla]
      simp [List.append_assoc]
    have hL : (d7 ++ '/' :: "trace_full_".toList).length = 19 := by
      simp [h7, hTl]
    rw [hblen, hassoc,
      show 24 + icao.length - 5 = 19 + icao.length from by omega, ← hL,
      List.take_append icao.length, List.take_left, List.drop_left]
  unfold blob_name_to_pk
  rw [hdrop]
  have hlen23 : ¬ (("database/globe_history/".toList ++ bla).length < 23) := by
    rw [List.length_append, hPl]
    omega
  rw [if_neg hlen23]
  have hlen8 : ¬ (bla.length < 8) := by omega
  rw [if_neg hlen8]
  have hslash : ¬ (bla.get? 7 ≠ some '/') := by
    rw [hget]
    simp
  rw [if_neg hslash]
  have hlen19 : ¬ (bla.length - 5 < 19) := by omega
  rw [if_neg hlen19, hicao, htake7]

/-! ## Claim theorems about the key codec -/

/-- C4: for every aircraft id and every first-of-month date with a
four-digit year, encoding with `pk_to_blob_name` and decoding with
`blob_name_to_pk` returns the original `(icao, first-of-month)` pair. -/
theorem pk_blob_roundtrip (icao : List Char) (y : Int) (mo : Nat)
    (hy1 : 1000 ≤ y) (hy2 : y ≤ 9999) (hm1 : 1 ≤ mo) (hm2 : mo ≤ 12) :
    blob_name_to_pk (pk_to_blob_name icao ⟨y, mo, 1⟩)
      = PkResult.ok icao ⟨y, mo, 1⟩ := by
  have hyc : yearChars y = [digitC (y.toNat / 1000), digitC (y.toNat / 100 % 10),
      digitC (y.toNat / 10 % 10), digitC (y.toNat % 10)] := by
    unfold yearChars
    rw [if_neg (by omega), decimal_four y.toNat (by omega) (by omega)]
  have hblob : pk_to_blob_name icao ⟨y, mo, 1⟩ =
      "database/globe_history/".toList ++
        ([digitC (y.toNat / 1000), digitC (y.toNat / 100 % 10),
          digitC (y.toNat / 10 % 10), digitC (y.toNat % 10),
          '-', digitC (mo / 10), digitC (mo % 10)] ++
          ('/' :: ("trace_full_".toList ++ (icao ++ ".json".toList)))) := by
    unfold pk_to_blob_name month2
    rw [Date.year_mk, Date.month_mk, hyc]
    have h1 : ("database/globe_history/".toList : List Char)
        = DIRECTORY ++ "/".toList ++ DATABASE ++ "/".toList := by decide
    have h2 : ("/trace_full_".toList : List Char) = '/' :: "trace_full_".toList := by
      decide
    rw [h1, h2]
    simp [List.append_assoc]
  rw [hblob, blob_name_to_pk_shape
    [digitC (y.toNat / 1000), digitC (y.toNat / 100 % 10),
     digitC (y.toNat / 10 % 10), digitC (y.toNat % 10),
     '-', digitC (mo / 10), digitC (mo % 10)] icao rfl]
  have ht4 : List.take 4 ([digitC (y.toNat / 1000), digitC (y.toNat / 100 % 10),
        digitC (y.toNat / 10 % 10), digitC (y.toNat % 10),
        '-', digitC (mo / 10), digitC (mo % 10)] : List Char)
      = [digitC (y.toNat / 1000), digitC (y.toNat / 100 % 10),
         digitC (y.toNat / 10 % 10), digitC (y.toNat % 10)] := rfl
  have hd5 : List.drop 5 ([digitC (y.toNat / 1000), digitC (y.toNat / 100 % 10),
        digitC (y.toNat / 10 % 10), digitC (y.toNat % 10),
        '-', digitC (mo / 10), digitC (mo % 10)] : List Char)
      = [digitC (mo / 10), digitC (mo % 10)] := rfl
  rw [ht4, hd5,
    parseNat_four _ _ _ _ (by omega) (by omega) (by omega) (by omega),
    parseNat_two _ _ (by omega) (by omega)]
  have hy : (1000 * (y.toNat / 1000) + 100 * (y.toNat / 100 % 10)
      + 10 * (y.toNat / 10 % 10) + y.toNat % 10) = y.toNat := by omega
  have hmo : 10 * (mo / 10) + mo % 10 = mo := by omega
  simp only [hy, hmo]
  show (if 1 ≤ mo ∧ mo ≤ 12
      then PkResult.ok icao ⟨(y.toNat : Int), mo, 1⟩ else PkResult.panic)
    = PkResult.ok icao ⟨y, mo, 1⟩
  rw [if_pos ⟨hm1, hm2⟩, Int.toNat_of_nonneg (by omega : (0 : Int) ≤ y)]

/-- Witness for C4 at icao `"abc"` and May 2024. -/
theorem pk_blob_roundtrip_witness :
    blob_name_to_pk (pk_to_blob_name "abc".toList ⟨2024, 5, 1⟩)
      = PkResult.ok "abc".toList ⟨2024, 5, 1⟩ :=
  pk_blob_roundtrip "abc".toList 2024 5 (by decide) (by decide) (by decide) (by decide)

/-- C7 counterexample: the key `"database/globe_history/2024-01/x"` is listed
under the month prefix and does not match the month-bucket naming pattern,
yet `blob_name_to_pk` panics on it (the `&bla[19..end - 5]` slice is out of
range) instead of skipping it silently. -/
theorem enumeration_skip_cex :
    blob_name_to_pk "database/globe_history/2024-01/x".toList = PkResult.panic ∧
    PkResult.panic ≠ PkResult.skip := by
  decide

/-- C7 amended: a listed key whose character at offset 7 after the fixed
23-character root (i.e. at index 30) is not `'/'` — a complete-date,
day-level key — is skipped silently, and the enumeration of a page is
unchanged by its presence; other non-matching keys can panic. -/
theorem enumeration_skips_complete_dates (blob : List Char)
    (pre post : List (List Char))
    (hlen : 31 ≤ blob.length) (hc : blob.get? 30 ≠ some '/') :
    blob_name_to_pk blob = PkResult.skip ∧
    page_pks (pre ++ blob :: post) = page_pks (pre ++ post) := by
  have hskip : blob_name_to_pk blob = PkResult.skip := by
    unfold blob_name_to_pk
    rw [if_neg (by omega : ¬ (blob.length < 23))]
    have hdlen : (blob.drop 23).length = blob.length - 23 := List.length_drop 23 blob
    rw [if_neg (by omega : ¬ ((blob.drop 23).length < 8))]
    have hg : (blob.drop 23).get? 7 = blob.get? 30 := by
      rw [List.get?_drop]
    rw [if_pos (by rw [hg]; exact hc)]
  refine ⟨hskip, ?_⟩
  induction pre with
  | nil => simp [page_pks, hskip]
  | cons q qs ih =>
    have e1 : page_pks ((q :: qs) ++ blob :: post)
        = match blob_name_to_pk q with
          | PkResult.panic => none
          | PkResult.skip => page_pks (qs ++ blob :: post)
          | PkResult.ok icao d =>
            match page_pks (qs ++ blob :: post) with
            | some l => some ((icao, d) :: l)
            | none => none := rfl
    have e2 : page_pks ((q :: qs) ++ post)
        = match blob_name_to_pk q with
          | PkResult.panic => none
          | PkResult.skip => page_pks (qs ++ post)
          | PkResult.ok icao d =>
            match page_pks (qs ++ post) with
            | some l => some ((icao, d) :: l)
            | none => none := rfl
    rw [e1, e2, ih]

/-- Witness for the amended C7: a complete-date key between two month keys
is skipped and leaves the page result unchanged. -/
theorem enumeration_skips_complete_dates_witness :
    blob_name_to_pk "database/globe_history/2024-01-05/trace_full_abc.json".toList
      = PkResult.skip ∧
    page_pks (["database/globe_history/2024-01/trace_full_abc.json".toList]
        ++ "database/globe_history/2024-01-05/trace_full_abc.json".toList
        :: ["database/globe_history/2024-01/trace_full_def.json".toList])
      = page_pks (["database/globe_history/2024-01/trace_full_abc.json".toList]
        ++ ["database/globe_history/2024-01/trace_full_def.json".toList]) :=
  enumeration_skips_complete_dates _ _ _ (by decide) (by decide)
